import Mathlib

/-!
Verification development for the methane-flux extraction scripts.

The repository consists of four scripts that detect "active sessions"
(maximal runs of rows whose `ChamberStatus` is non-zero) in a chamber
time-series table and export per-session or per-segment row slices.

This file shallowly embeds:
* the segment-accumulator loop of `extract_ch4.py` (`segLoop` / `extractRun`),
* the three session detectors: the `!= 0` LAG/LEAD boundary scan shared
  by `extract_ch4.py` / `extract_ch4_2.py` / `extract_chambers.py`
  (`startTimes`, `endTimes`) with its two pairings — the
  nearest-following-end LATERAL join of `extract_ch4.py` /
  `extract_ch4_2.py` (`nearestEnd`, `sessionsOf`) and the plain
  chamber-equijoin of `extract_chambers.py` (`sessionsChambers`) — and
  the separate `status = 1.0` boundary scan with `ROW_NUMBER`
  positional pairing of `extract_ch4_3.py` (`startTimes3Aux`,
  `endTimes3Aux`, `sessionsOf3`),
* the per-session export loop of `extract_ch4_2.py` (`extractV2`), and
* the error-handling control flow of `extract_ch4_3.py` (`extractV3`,
  `mainV3`).
-/

namespace MethaneFlux

/-- A materialized session, as consumed by the accumulator loop of
`extract_ch4.py`: the detected `ChamberID`, the detected
`duration_seconds`, and the rows returned by the per-session data query
(the row type `α` is abstract; the loop never inspects row contents). -/
structure Sess (α : Type) where
  chamber : Int
  duration : Int
  rows : List α
deriving Repr, DecidableEq

/-- Python slice semantics of `df.iloc[:k]` and `df.iloc[k:]` for an
integer `k`: a non-negative `k` is clamped to the length, a negative `k`
counts from the end (clamped to `0`).  In every case the two slices are
`(take m, drop m)` for the same cut point `m`. -/
def pySplit (l : List α) (k : Int) : List α × List α :=
  let m : Nat := if 0 ≤ k then k.toNat else ((l.length : Int) + k).toNat
  (l.take m, l.drop m)

/-- One flushed segment of `extract_ch4.py`: the `ChamberID` of the row
current at flush time, the value of `segment_count` used in the file
name (note the source resets `segment_count` to `0` *before* writing on
a full flush), the accumulated duration discharged by this flush
(`total_duration` before the flush minus `total_duration` after it),
and the concatenated rows (`combined_df`). -/
structure Flush (α : Type) where
  chamber : Int
  label : Nat
  dur : Int
  rows : List α
deriving Repr, DecidableEq

/-- Whether the next session belongs to a different chamber
(`different_id` in `extract_ch4.py`; `True` when no session remains). -/
def differentNext (s : Sess α) (rest : List (Sess α)) : Bool :=
  match rest.head? with
  | none => true
  | some n => s.chamber != n.chamber

/-- The buffer update at the top of each loop iteration of
`extract_ch4.py` (lines 103-111), with `total'` the already-updated
`total_duration`: when `total_duration >= time_sample` the just-fetched
rows are split at `idx_sep = duration_seconds - time_diff` where
`time_diff = total_duration - time_sample + 1`, and both slices are
appended to `dfs`; otherwise the rows are appended whole. -/
def appendStep (T : Int) (s : Sess α) (dfs : List (List α)) (total' : Int) :
    List (List α) :=
  if T ≤ total' then
    dfs ++ [(pySplit s.rows (s.duration - (total' - T + 1))).1,
            (pySplit s.rows (s.duration - (total' - T + 1))).2]
  else dfs ++ [s.rows]

/-- The `while(True)` accumulator loop of `extract_ch4.extract_chamber_ch4`,
one constructor case per loop iteration.  State threaded through the
recursion: the remaining sessions (the code's `idx` cursor), the pending
buffer `dfs`, the running `total_duration`, and `segment_count`.

Per iteration, mirroring the source:
* `total_duration += duration_seconds`, then `appendStep`;
* if `time_exceed or time_equal or different_id or all_session_processed`,
  flush: when `time_exceed and not different_id`, emit `dfs[:-1]` under
  the incremented `segment_count` and carry `dfs[-1]` with
  `total_duration = time_diff`; otherwise reset `segment_count` to `0`
  *and then* emit the whole buffer (so the artifact is labeled `0`),
  resetting the buffer and `total_duration`;
* the loop breaks only after a flush with no sessions remaining, which
  the recursion realizes because `segLoop` on `[]` emits nothing.
The `dur` field of each flush records `total_duration` entering the
flush minus `total_duration` leaving it. -/
def segLoop (T : Int) : List (Sess α) → List (List α) → Int → Nat → List (Flush α)
  | [], _, _, _ => []
  | s :: rest, dfs, total, segCount =>
    if T < total + s.duration ∨ total + s.duration = T ∨
        differentNext s rest ∨ rest.isEmpty then
      if T < total + s.duration ∧ differentNext s rest = false then
        ⟨s.chamber, segCount + 1,
            total + s.duration - (total + s.duration - T + 1),
            (appendStep T s dfs (total + s.duration)).dropLast.flatten⟩ ::
          segLoop T rest [(appendStep T s dfs (total + s.duration)).getLastD []]
            (total + s.duration - T + 1) (segCount + 1)
      else
        ⟨s.chamber, 0, total + s.duration,
            (appendStep T s dfs (total + s.duration)).flatten⟩ ::
          segLoop T rest [] 0 0
    else
      segLoop T rest (appendStep T s dfs (total + s.duration))
        (total + s.duration) segCount

/-- Top level of `extract_chamber_ch4` in `extract_ch4.py` after the
session query: the loop body reads `all_active_sessions.iloc[idx]` with
`idx = 0` before any exit test, so an empty session list raises an
out-of-bounds indexing error; otherwise the loop runs to completion and
yields the flush trace. -/
def extractRun (T : Int) (sessions : List (Sess α)) : Except String (List (Flush α)) :=
  match sessions with
  | [] => .error "single positional indexer is out-of-bounds"
  | s :: rest => .ok (segLoop T (s :: rest) [] 0 0)

/-- The CSV path written for a flush:
`Chamber_{int(chamber_id)}_Segment_{segment_count}.csv`. -/
def fileName (f : Flush α) : String :=
  "Chamber_" ++ toString f.chamber ++ "_Segment_" ++ toString f.label ++ ".csv"

/-- The flushes actually written to disk: the source writes the CSV only
when `len(combined_df) > 0` and otherwise prints a skip message. -/
def artifacts (fs : List (Flush α)) : List (Flush α) :=
  fs.filter (fun f => !f.rows.isEmpty)

/-! ## Session detectors

The repository contains three session-detection queries.  All partition
by `ChamberID`, so each detector is modelled on one chamber's
partition: a list of `(TIMESTAMP, ChamberStatus)` pairs in time order.

* `extract_ch4.py`, `extract_ch4_2.py` and `extract_chambers.py` share
  the same boundary CTEs (`ChamberStatus != 0` with `LAG`/`LEAD`,
  modelled by `startTimes` / `endTimes`; `LAG` is the carried previous
  status, starting from `none` = SQL `NULL`, `LEAD` the next list
  entry's status) but differ in how starts and ends are *paired*:
  `extract_ch4.py` / `extract_ch4_2.py` use a `LATERAL` nearest
  strictly-later end (`nearestEnd`, `sessionsOf`), while
  `extract_chambers.py` uses a plain equijoin on the chamber with
  `WHERE end_time > start_time`, i.e. every later end
  (`sessionsChambers`).
* `extract_ch4_3.py` uses its own CTEs: boundaries of runs of status
  exactly `1.0`, with a `CASE` that labels `START` before `END`, and a
  `ROW_NUMBER`-positional pairing (`startTimes3Aux`, `endTimes3Aux`,
  `sessionsOf3`). -/

/-- `session_start` CTE: rows with `ChamberStatus != 0 AND (prev_status
= 0 OR prev_status IS NULL)`, projected to their timestamps, with the
`LAG` value carried as `prev`. -/
def startTimesAux : Option Int → List (Nat × Int) → List Nat
  | _, [] => []
  | prev, r :: rest =>
    if r.2 ≠ 0 ∧ (prev = some 0 ∨ prev = none) then
      r.1 :: startTimesAux (some r.2) rest
    else startTimesAux (some r.2) rest

/-- Start timestamps of a chamber partition (`prev_status` of the first
row is `NULL`). -/
def startTimes (log : List (Nat × Int)) : List Nat :=
  startTimesAux none log

/-- `session_end` CTE: rows with `ChamberStatus != 0 AND (next_status =
0 OR next_status IS NULL)`, projected to their timestamps; `LEAD` is
the head of the remaining rows. -/
def endTimes : List (Nat × Int) → List Nat
  | [] => []
  | r :: rest =>
    if r.2 ≠ 0 ∧ rest.head?.all (fun x => x.2 == 0) = true then
      r.1 :: endTimes rest
    else endTimes rest

/-- The `JOIN LATERAL (SELECT e.end_time ... WHERE e.end_time >
s.start_time ORDER BY e.end_time LIMIT 1)`: the smallest end timestamp
strictly after the start, `none` when no such end exists (the inner
join then drops the start). -/
def nearestEnd (ends : List Nat) (s : Nat) : Option Nat :=
  (ends.filter (fun e => decide (s < e))).min?

/-- The sessions detected by `extract_ch4.py` / `extract_ch4_2.py` for
one chamber partition: each start paired with its nearest
strictly-later end, starts without one dropped by the inner lateral
join, in start-time order (the final `ORDER BY`). -/
def sessionsOf (log : List (Nat × Int)) : List (Nat × Nat) :=
  (startTimes log).filterMap
    (fun s => (nearestEnd (endTimes log) s).map (fun e => (s, e)))

/-- No row of the partition is simultaneously a session start and a
session end, i.e. every maximal run of non-zero status spans at least
two rows.  (`prev` is the carried `LAG` value.) -/
def NoSingletonRunAux : Option Int → List (Nat × Int) → Prop
  | _, [] => True
  | prev, r :: rest =>
    ¬(r.2 ≠ 0 ∧ (prev = some 0 ∨ prev = none) ∧
        rest.head?.all (fun x => x.2 == 0) = true)
      ∧ NoSingletonRunAux (some r.2) rest

/-- `NoSingletonRunAux` from the partition's edge. -/
def NoSingletonRun (log : List (Nat × Int)) : Prop :=
  NoSingletonRunAux none log

instance instDecidableNoSingletonRunAux :
    ∀ (p : Option Int) (l : List (Nat × Int)), Decidable (NoSingletonRunAux p l)
  | _, [] => isTrue trivial
  | _, r :: rest =>
    @instDecidableAnd _ _ inferInstance (instDecidableNoSingletonRunAux (some r.2) rest)

instance instDecidableNoSingletonRun (log : List (Nat × Int)) :
    Decidable (NoSingletonRun log) :=
  instDecidableNoSingletonRunAux none log

/-- The full nearest-end detector output over the chamber-partitioned
table: one entry per chamber partition in table order (the final
`ORDER BY s.ChamberID, s.start_time`), each session labeled with its
chamber. -/
def detectAll (tbl : List (Int × List (Nat × Int))) : List (Int × Nat × Nat) :=
  tbl.flatMap (fun p => (sessionsOf p.2).map (fun q => (p.1, q)))

/-- The start/end pairing of `extract_chambers.py`: the same `!= 0`
boundary CTEs, but joined with a plain
`JOIN session_ends e ON s.ChamberID = e.ChamberID` and
`WHERE CAST(e.end_time ...) > CAST(s.start_time ...)` — each start is
paired with *every* strictly later end of the same chamber. -/
def sessionsChambers (log : List (Nat × Int)) : List (Nat × Nat) :=
  (startTimes log).flatMap (fun s =>
    ((endTimes log).filter (fun e => decide (s < e))).map (fun e => (s, e)))

/-- `session_starts` of `extract_ch4_3.py`: rows labeled `START` by the
`CASE`, i.e. `ChamberStatus = 1.0 AND (prev_status != 1.0 OR
prev_status IS NULL)`.  The carried flag records whether the previous
row's status was exactly `1.0` (`false` at the partition's edge, which
also encodes the SQL's `IS NULL` arm). -/
def startTimes3Aux : Bool → List (Nat × Int) → List Nat
  | _, [] => []
  | prevOne, r :: rest =>
    if r.2 = 1 ∧ prevOne = false then
      r.1 :: startTimes3Aux (r.2 == 1) rest
    else startTimes3Aux (r.2 == 1) rest

/-- `session_ends` of `extract_ch4_3.py`: rows labeled `END`.  The
`CASE` tests the `START` arm first, so an end is a row with
`ChamberStatus = 1.0` that is *not* a start (its `prev_status` was
`1.0`) and whose `next_status` differs from `1.0` or is `NULL`. -/
def endTimes3Aux : Bool → List (Nat × Int) → List Nat
  | _, [] => []
  | prevOne, r :: rest =>
    if r.2 = 1 ∧ prevOne = true ∧ rest.head?.all (fun x => x.2 != 1) = true then
      r.1 :: endTimes3Aux (r.2 == 1) rest
    else endTimes3Aux (r.2 == 1) rest

/-- The `ROW_NUMBER` pairing of `extract_ch4_3.py`: the k-th start (by
timestamp) joins the k-th end (`ON s.session_num = e.session_num`;
unmatched numbers are dropped by the inner join, which `zip`'s
truncation mirrors), then `WHERE s.start_time < e.end_time` filters the
pairs. -/
def sessionsOf3 (log : List (Nat × Int)) : List (Nat × Nat) :=
  ((startTimes3Aux false log).zip (endTimes3Aux false log)).filter
    (fun p => decide (p.1 < p.2))

/-- No maximal run of status exactly `1.0` is a single row: no row
satisfies both the `START` condition and the (shadowed) `END` condition
of `extract_ch4_3.py`'s `CASE`. -/
def NoSingletonRun3Aux : Bool → List (Nat × Int) → Prop
  | _, [] => True
  | prevOne, r :: rest =>
    ¬(r.2 = 1 ∧ prevOne = false ∧ rest.head?.all (fun x => x.2 != 1) = true)
      ∧ NoSingletonRun3Aux (r.2 == 1) rest

/-- `NoSingletonRun3Aux` from the partition's edge. -/
def NoSingletonRun3 (log : List (Nat × Int)) : Prop :=
  NoSingletonRun3Aux false log

instance instDecidableNoSingletonRun3Aux :
    ∀ (b : Bool) (l : List (Nat × Int)), Decidable (NoSingletonRun3Aux b l)
  | _, [] => isTrue trivial
  | _, r :: rest =>
    @instDecidableAnd _ _ inferInstance
      (instDecidableNoSingletonRun3Aux (r.2 == 1) rest)

instance instDecidableNoSingletonRun3 (log : List (Nat × Int)) :
    Decidable (NoSingletonRun3 log) :=
  instDecidableNoSingletonRun3Aux false log

/-! ## Per-session export loop of `extract_ch4_2.py` -/

/-- A materialized session as consumed by `extract_ch4_2.py`'s `for`
loop: the detected `ChamberID` and the rows of the per-session data
query. -/
structure SessV2 (α : Type) where
  chamber : Int
  rows : List α
deriving Repr, DecidableEq

/-- What one iteration of `extract_ch4_2.py`'s loop does: either write
`Chamber_<id>_Session_<i>.csv` (when the fetched frame is non-empty) or
print the skip message. -/
inductive EventV2 where
  | wrote (name : String) (count : Nat)
  | skipped (chamber : Int) (idx : Nat)
deriving Repr, DecidableEq

/-- The per-session loop of `extract_ch4_2.extract_chamber_ch4`: every
detected session is visited in order; a session whose data query
returns rows is written to `Chamber_<id>_Session_<i>.csv`, an empty one
is reported with a skip message and processing continues. -/
def extractV2 {α : Type} (ss : List (SessV2 α)) : List EventV2 :=
  ss.enum.map (fun p =>
    if p.2.rows.isEmpty then EventV2.skipped p.2.chamber p.1
    else EventV2.wrote
      ("Chamber_" ++ toString p.2.chamber ++ "_Session_" ++ toString p.1 ++ ".csv")
      p.2.rows.length)

/-- The files `extractV2` writes. -/
def writtenV2 (evs : List EventV2) : List String :=
  evs.filterMap (fun e =>
    match e with
    | EventV2.wrote n _ => some n
    | EventV2.skipped _ _ => none)

/-! ## Error-handling control flow of `extract_ch4_3.py` -/

/-- A session as consumed by `extract_ch4_3.py`'s loop: chamber,
`session_num`, whether the timestamp conversion succeeded (the
`try/except` around the datetime parsing), the `start_str` used in the
file name, and the fetched rows. -/
structure SessV3 (α : Type) where
  chamber : Int
  sessionNum : Nat
  parseOk : Bool
  startStr : String
  rows : List α
deriving Repr, DecidableEq

/-- `extract_ch4_3.extract_chamber_ch4` after the connection is open:
the session query runs inside `try/except`; on failure the function
prints the error and *returns normally* with nothing processed.  On
success each session is skipped when its timestamps fail to parse or
its data query returns no rows, and otherwise written. -/
def extractV3 {α : Type} (q : Except String (List (SessV3 α))) : List String :=
  match q with
  | Except.error _ => []
  | Except.ok ss =>
    ss.filterMap (fun s =>
      if s.parseOk && !s.rows.isEmpty then
        some ("Chamber_" ++ toString s.chamber ++ "_Session_" ++
          toString s.sessionNum ++ "_" ++ s.startStr ++ ".csv")
      else none)

/-- The `__main__` block of `extract_ch4_3.py`: exit code (first
component) and written files (second).  It exits `1` when the database
file is missing, when opening the connection raises (caught by the
outer `try/except ... exit(1)`), or when requested validation fails;
otherwise it calls `extractV3` — whose internal `except` swallows a
query failure — and exits `0`. -/
def mainV3 {α : Type} (dbExists connectOk validateFlag validateOk : Bool)
    (q : Except String (List (SessV3 α))) : Nat × List String :=
  if !dbExists then (1, [])
  else if !connectOk then (1, [])
  else if validateFlag && !validateOk then (1, [])
  else (0, extractV3 q)

section AccumulatorLemmas

variable {α : Type}

theorem pySplit_fst_append_snd (l : List α) (k : Int) :
    (pySplit l k).1 ++ (pySplit l k).2 = l := by
  simp [pySplit]

theorem appendStep_flatten (T : Int) (s : Sess α) (dfs : List (List α)) (t' : Int) :
    (appendStep T s dfs t').flatten = dfs.flatten ++ s.rows := by
  unfold appendStep
  split
  · simp [← List.append_assoc, pySplit_fst_append_snd]
  · simp

theorem appendStep_dropLast (T : Int) (s : Sess α) (dfs : List (List α)) (t' : Int)
    (h : T ≤ t') :
    (appendStep T s dfs t').dropLast
      = dfs ++ [(pySplit s.rows (s.duration - (t' - T + 1))).1] := by
  rw [appendStep, if_pos h,
    show dfs ++ [(pySplit s.rows (s.duration - (t' - T + 1))).1,
        (pySplit s.rows (s.duration - (t' - T + 1))).2]
      = (dfs ++ [(pySplit s.rows (s.duration - (t' - T + 1))).1])
        ++ [(pySplit s.rows (s.duration - (t' - T + 1))).2] by simp,
    List.dropLast_concat]

theorem appendStep_getLastD (T : Int) (s : Sess α) (dfs : List (List α)) (t' : Int)
    (h : T ≤ t') :
    (appendStep T s dfs t').getLastD []
      = (pySplit s.rows (s.duration - (t' - T + 1))).2 := by
  rw [appendStep, if_pos h,
    show dfs ++ [(pySplit s.rows (s.duration - (t' - T + 1))).1,
        (pySplit s.rows (s.duration - (t' - T + 1))).2]
      = (dfs ++ [(pySplit s.rows (s.duration - (t' - T + 1))).1])
        ++ [(pySplit s.rows (s.duration - (t' - T + 1))).2] by simp]
  simp [List.getLastD_concat]

/-- Row conservation through one run of the loop, generalized over the
loop state: the rows of all emitted flushes, in emission order, are the
pending buffer followed by the remaining sessions' rows (for a nonempty
remaining-session list; the loop is never entered with an empty one). -/
theorem segLoop_flatMap_rows (T : Int) :
    ∀ (ss : List (Sess α)) (dfs : List (List α)) (total : Int) (cnt : Nat),
      ss ≠ [] →
      (segLoop T ss dfs total cnt).flatMap (fun f => f.rows)
        = dfs.flatten ++ ss.flatMap (fun s => s.rows)
  | [], _, _, _, h => absurd rfl h
  | s :: rest, dfs, total, cnt, _ => by
    rw [segLoop]
    rcases Decidable.em
        (T < total + s.duration ∨ total + s.duration = T ∨
          differentNext s rest ∨ rest.isEmpty) with hfl | hfl
    · rw [if_pos hfl]
      rcases Decidable.em
          (T < total + s.duration ∧ differentNext s rest = false) with hx | hx
      · rw [if_pos hx]
        have hrest : rest ≠ [] := by
          rcases rest with _ | ⟨n, rest'⟩
          · simp [differentNext] at hx
          · simp
        rw [List.flatMap_cons,
          segLoop_flatMap_rows T rest _ _ _ hrest,
          appendStep_dropLast T s dfs _ (le_of_lt hx.1),
          appendStep_getLastD T s dfs _ (le_of_lt hx.1)]
        generalize hpq :
          pySplit s.rows (s.duration - (total + s.duration - T + 1)) = pq
        have hps : pq.1 ++ pq.2 = s.rows := by
          rw [← hpq]; exact pySplit_fst_append_snd _ _
        simp [← hps, List.append_assoc]
      · rw [if_neg hx, List.flatMap_cons]
        rcases rest with _ | ⟨n, rest'⟩
        · simp [segLoop, appendStep_flatten]
        · rw [segLoop_flatMap_rows T (n :: rest') [] 0 0 (by simp)]
          simp [appendStep_flatten]
    · rw [if_neg hfl]
      have hrest : rest ≠ [] := by
        rcases rest with _ | ⟨n, rest'⟩
        · simp at hfl
        · simp
      rw [segLoop_flatMap_rows T rest _ _ _ hrest, appendStep_flatten]
      simp

/-- Per-chamber row conservation, generalized over the loop state.  The
pending buffer always belongs to the chamber of the next session to be
processed, so filtering the emitted flushes by a chamber `c` recovers
the buffer (when owned by `c`) followed by the rows of the remaining
sessions of chamber `c`, in order. -/
theorem segLoop_filter_flatMap (T : Int) (c : Int) :
    ∀ (ss : List (Sess α)) (dfs : List (List α)) (total : Int) (cnt : Nat),
      ((segLoop T ss dfs total cnt).filter (fun f => f.chamber == c)).flatMap
          (fun f => f.rows)
        = (match ss with
           | [] => []
           | s :: _ => if s.chamber = c then dfs.flatten else [])
          ++ (ss.filter (fun s => s.chamber == c)).flatMap (fun s => s.rows)
  | [], _, _, _ => by simp [segLoop]
  | s :: rest, dfs, total, cnt => by
    rw [segLoop]
    rcases Decidable.em
        (T < total + s.duration ∨ total + s.duration = T ∨
          differentNext s rest ∨ rest.isEmpty) with hfl | hfl
    · rw [if_pos hfl]
      rcases Decidable.em
          (T < total + s.duration ∧ differentNext s rest = false) with hx | hx
      · rw [if_pos hx]
        rcases rest with _ | ⟨n, rest'⟩
        · simp [differentNext] at hx
        have hnc : s.chamber = n.chamber := by
          have h2 := hx.2
          simpa [differentNext] using h2
        have ih := segLoop_filter_flatMap T c (n :: rest')
          [(appendStep T s dfs (total + s.duration)).getLastD []]
          (total + s.duration - T + 1) (cnt + 1)
        rw [appendStep_dropLast T s dfs _ (le_of_lt hx.1),
          appendStep_getLastD T s dfs _ (le_of_lt hx.1)] at *
        generalize hpq :
          pySplit s.rows (s.duration - (total + s.duration - T + 1)) = pq at *
        have hps : pq.1 ++ pq.2 = s.rows := by
          rw [← hpq]; exact pySplit_fst_append_snd _ _
        by_cases hc : s.chamber = c
        · simp [List.filter_cons, hc, ← hnc, ih, ← hps, List.append_assoc]
        · simp [List.filter_cons, hc, ← hnc, ih]
      · rw [if_neg hx]
        rcases rest with _ | ⟨n, rest'⟩
        · by_cases hc : s.chamber = c <;>
            simp [segLoop, List.filter_cons, hc, appendStep_flatten]
        · have ih := segLoop_filter_flatMap T c (n :: rest') [] 0 0
          by_cases hc : s.chamber = c <;>
            simp [List.filter_cons, hc, ih, appendStep_flatten, List.append_assoc]
    · rw [if_neg hfl]
      rcases rest with _ | ⟨n, rest'⟩
      · simp at hfl
      have hd : differentNext s (n :: rest') = false := by
        simp only [not_or] at hfl
        exact Bool.not_eq_true _ ▸ hfl.2.2.1
      have hnc : s.chamber = n.chamber := by simpa [differentNext] using hd
      have ih := segLoop_filter_flatMap T c (n :: rest')
        (appendStep T s dfs (total + s.duration)) (total + s.duration) cnt
      by_cases hc : s.chamber = c
      · simp [List.filter_cons, hc, ← hnc, ih, appendStep_flatten, List.append_assoc]
      · simp [List.filter_cons, hc, ← hnc, ih, appendStep_flatten]

theorem pySplit_fst_subset (l : List α) (k : Int) :
    ∀ r ∈ (pySplit l k).1, r ∈ l := by
  intro r hr
  simp only [pySplit] at hr
  exact List.mem_of_mem_take hr

theorem pySplit_snd_subset (l : List α) (k : Int) :
    ∀ r ∈ (pySplit l k).2, r ∈ l := by
  intro r hr
  simp only [pySplit] at hr
  exact List.mem_of_mem_drop hr

/-- Every row-set in the buffer after `appendStep` is either an old
buffer entry or a subset of the appended session's rows. -/
theorem appendStep_mem (T : Int) (s : Sess α) (dfs : List (List α)) (t' : Int)
    (l : List α) (hl : l ∈ appendStep T s dfs t') :
    l ∈ dfs ∨ ∀ r ∈ l, r ∈ s.rows := by
  unfold appendStep at hl
  split at hl <;>
    simp only [List.mem_append, List.mem_cons, List.mem_singleton,
      List.not_mem_nil, or_false] at hl
  · rcases hl with h | h | h
    · exact Or.inl h
    · exact Or.inr fun r hr => pySplit_fst_subset _ _ r (h ▸ hr)
    · exact Or.inr fun r hr => pySplit_snd_subset _ _ r (h ▸ hr)
  · rcases hl with h | h
    · exact Or.inl h
    · exact Or.inr fun r hr => h ▸ hr

/-- Chamber homogeneity, generalized over the loop state: if every
session's rows carry that session's `ChamberID` in their first
component (which the per-session `WHERE ChamberID = ...` data query
guarantees), and every row-set in the pending buffer carries the
chamber of the next session to be processed, then every row of every
emitted flush carries the flush's chamber: no segment mixes rows of two
chambers. -/
theorem segLoop_rows_tag {β : Type} (T : Int) :
    ∀ (ss : List (Sess (Int × β))) (dfs : List (List (Int × β)))
      (total : Int) (cnt : Nat),
      (∀ s ∈ ss, ∀ r ∈ s.rows, r.1 = s.chamber) →
      (∀ l ∈ dfs, ∀ r ∈ l, ∀ s₀ ∈ ss.head?, r.1 = s₀.chamber) →
      ∀ f ∈ segLoop T ss dfs total cnt, ∀ r ∈ f.rows, r.1 = f.chamber
  | [], _, _, _ => by simp [segLoop]
  | s :: rest, dfs, total, cnt => by
    intro hss hbuf
    have hb : ∀ l ∈ dfs, ∀ r ∈ l, r.1 = s.chamber := fun l hl r hr =>
      hbuf l hl r hr s (by simp)
    have hall : ∀ l ∈ appendStep T s dfs (total + s.duration),
        ∀ r ∈ l, r.1 = s.chamber := by
      intro l hl r hr
      rcases appendStep_mem T s dfs _ l hl with h | h
      · exact hb l h r hr
      · exact hss s (by simp) r (h r hr)
    rw [segLoop]
    rcases Decidable.em
        (T < total + s.duration ∨ total + s.duration = T ∨
          differentNext s rest ∨ rest.isEmpty) with hfl | hfl
    · rw [if_pos hfl]
      rcases Decidable.em
          (T < total + s.duration ∧ differentNext s rest = false) with hx | hx
      · rw [if_pos hx]
        rcases rest with _ | ⟨n, rest'⟩
        · simp [differentNext] at hx
        have hnc : s.chamber = n.chamber := by
          have h2 := hx.2
          simpa [differentNext] using h2
        intro f hf r hr
        rcases List.mem_cons.1 hf with hf | hf
        · subst hf
          simp only [List.mem_flatten] at hr
          rcases hr with ⟨l, hl, hr⟩
          exact hall l ((List.dropLast_sublist _).subset hl) r hr
        · refine segLoop_rows_tag T (n :: rest') _ _ _
            (fun t ht => hss t (List.mem_cons_of_mem s ht)) ?_ f hf r hr
          intro l hl r' hr' s₀ hs₀
          simp only [List.mem_singleton] at hl
          simp only [List.head?_cons, Option.mem_def, Option.some.injEq] at hs₀
          subst hl; subst hs₀
          rw [appendStep_getLastD T s dfs _ (le_of_lt hx.1)] at hr'
          exact hnc ▸ hss s (by simp) r' (pySplit_snd_subset _ _ r' hr')
      · rw [if_neg hx]
        intro f hf r hr
        rcases List.mem_cons.1 hf with hf | hf
        · subst hf
          simp only [List.mem_flatten] at hr
          rcases hr with ⟨l, hl, hr⟩
          exact hall l hl r hr
        · exact segLoop_rows_tag T rest _ _ _
            (fun t ht => hss t (List.mem_cons_of_mem s ht))
            (by simp) f hf r hr
    · rw [if_neg hfl]
      rcases rest with _ | ⟨n, rest'⟩
      · simp at hfl
      have hd : differentNext s (n :: rest') = false := by
        simp only [not_or] at hfl
        exact Bool.not_eq_true _ ▸ hfl.2.2.1
      have hnc : s.chamber = n.chamber := by simpa [differentNext] using hd
      refine segLoop_rows_tag T (n :: rest') _ _ _
        (fun t ht => hss t (List.mem_cons_of_mem s ht)) ?_
      intro l hl r hr s₀ hs₀
      simp only [List.head?_cons, Option.mem_def, Option.some.injEq] at hs₀
      subst hs₀
      exact hnc ▸ hall l hl r hr

/-- Every emitted flush is labeled with the chamber of some remaining
session (the `ChamberID` of the row current at flush time). -/
theorem segLoop_chamber_mem (T : Int) :
    ∀ (ss : List (Sess α)) (dfs : List (List α)) (total : Int) (cnt : Nat),
      ∀ f ∈ segLoop T ss dfs total cnt, ∃ s ∈ ss, f.chamber = s.chamber
  | [], _, _, _ => by simp [segLoop]
  | s :: rest, dfs, total, cnt => by
    rw [segLoop]
    split
    · split
      · intro f hf
        rcases List.mem_cons.1 hf with hf | hf
        · exact ⟨s, by simp, by rw [hf]⟩
        · rcases segLoop_chamber_mem T rest _ _ _ f hf with ⟨t, ht, hft⟩
          exact ⟨t, List.mem_cons_of_mem s ht, hft⟩
      · intro f hf
        rcases List.mem_cons.1 hf with hf | hf
        · exact ⟨s, by simp, by rw [hf]⟩
        · rcases segLoop_chamber_mem T rest _ _ _ f hf with ⟨t, ht, hft⟩
          exact ⟨t, List.mem_cons_of_mem s ht, hft⟩
    · intro f hf
      rcases segLoop_chamber_mem T rest _ _ _ f hf with ⟨t, ht, hft⟩
      exact ⟨t, List.mem_cons_of_mem s ht, hft⟩

/-- The duration bound, generalized over the loop state: when the input
sessions are sorted by chamber (as the detector's `ORDER BY ChamberID,
start_time` provides), any flush that is followed by a later flush of
the same chamber discharges at most `T` seconds.  An overflow flush
retained with the carry discharges exactly `T - 1`, an exact hit
exactly `T`; a flush exceeding `T` can only happen on a chamber change
or at the end of the input, which under sortedness makes it the last
flush of its chamber. -/
theorem segLoop_pairwise_dur (T : Int) :
    ∀ (ss : List (Sess α)) (dfs : List (List α)) (total : Int) (cnt : Nat),
      ss.Pairwise (fun a b => a.chamber ≤ b.chamber) →
      (segLoop T ss dfs total cnt).Pairwise
        (fun f g => f.chamber = g.chamber → f.dur ≤ T)
  | [], _, _, _ => by simp [segLoop]
  | s :: rest, dfs, total, cnt => by
    intro hsort
    rw [segLoop]
    rcases Decidable.em
        (T < total + s.duration ∨ total + s.duration = T ∨
          differentNext s rest ∨ rest.isEmpty) with hfl | hfl
    · rw [if_pos hfl]
      rcases Decidable.em
          (T < total + s.duration ∧ differentNext s rest = false) with hx | hx
      · rw [if_pos hx]
        refine List.pairwise_cons.2
          ⟨?_, segLoop_pairwise_dur T rest _ _ _ hsort.of_cons⟩
        intro g _ _
        show total + s.duration - (total + s.duration - T + 1) ≤ T
        omega
      · rw [if_neg hx]
        refine List.pairwise_cons.2
          ⟨?_, segLoop_pairwise_dur T rest _ _ _ hsort.of_cons⟩
        intro g hg hceq
        show total + s.duration ≤ T
        by_cases hle : total + s.duration ≤ T
        · exact hle
        · exfalso
          have hTlt : T < total + s.duration := by omega
          have hdiff : differentNext s rest = true := by
            rcases Bool.eq_false_or_eq_true (differentNext s rest) with h | h
            · exact h
            · exact absurd ⟨hTlt, h⟩ hx
          rcases rest with _ | ⟨n, rest'⟩
          · simp [segLoop] at hg
          · have hsn : s.chamber ≠ n.chamber := by
              simpa [differentNext] using hdiff
            have hle1 : s.chamber ≤ n.chamber :=
              (List.pairwise_cons.1 hsort).1 n (by simp)
            rcases segLoop_chamber_mem T (n :: rest') _ _ _ g hg with ⟨t, ht, hgt⟩
            have hnt : n.chamber ≤ t.chamber := by
              rcases List.mem_cons.1 ht with h | h
              · exact h ▸ le_refl _
              · exact (List.pairwise_cons.1 hsort.of_cons).1 t h
            have hsg : s.chamber = g.chamber := hceq
            omega
    · rw [if_neg hfl]
      exact segLoop_pairwise_dur T rest _ _ _ hsort.of_cons

end AccumulatorLemmas

section DetectorLemmas

theorem mem_startTimesAux_times :
    ∀ (l : List (Nat × Int)) (prev : Option Int) (s : Nat),
      s ∈ startTimesAux prev l → s ∈ l.map Prod.fst
  | [], _, _, h => by simp [startTimesAux] at h
  | r :: rest, prev, s, h => by
    rw [startTimesAux] at h
    split at h
    · rcases List.mem_cons.1 h with h | h
      · simp [h]
      · simp only [List.map_cons, List.mem_cons]
        exact Or.inr (mem_startTimesAux_times rest _ s h)
    · simp only [List.map_cons, List.mem_cons]
      exact Or.inr (mem_startTimesAux_times rest _ s h)

theorem mem_endTimes_cons (r : Nat × Int) (rest : List (Nat × Int)) (e : Nat)
    (h : e ∈ endTimes rest) : e ∈ endTimes (r :: rest) := by
  rw [endTimes]
  split
  · exact List.mem_cons_of_mem _ h
  · exact h

/-- A partition whose first row is active contains an end at or after
that row: walking forward, the last active row before the status drops
(or the log ends) is reported by the `session_end` CTE. -/
theorem exists_end_of_active_head :
    ∀ (rest : List (Nat × Int)) (r : Nat × Int),
      List.Pairwise (fun a b : Nat × Int => a.1 < b.1) (r :: rest) →
      r.2 ≠ 0 →
      ∃ e ∈ endTimes (r :: rest), r.1 ≤ e
  | [], r, _, h2 => by
    refine ⟨r.1, ?_, le_refl _⟩
    rw [endTimes, if_pos ⟨h2, by simp⟩]
    simp
  | n :: rest', r, hsort, h2 => by
    by_cases h3 : n.2 = 0
    · refine ⟨r.1, ?_, le_refl _⟩
      rw [endTimes, if_pos ⟨h2, by simp [h3]⟩]
      simp
    · rcases exists_end_of_active_head rest' n hsort.of_cons h3 with ⟨e, he, hle⟩
      refine ⟨e, ?_, ?_⟩
      · rw [endTimes, if_neg (fun hc => h3 (by simpa using hc.2))]
        exact he
      · have hn : r.1 < n.1 := (List.pairwise_cons.1 hsort).1 n (by simp)
        omega

/-- A start reported strictly inside a still-active region is preceded,
within that region, by an end: walking from an active row `r₂` whose
predecessor was active (`σ ≠ 0`), any start `s'` further on must come
after the status has dropped to zero, and the last active row before
that drop is an end after `r₂` and before `s'`. -/
theorem startTimesAux_cons_of_active_prev (σ : Int) (hσ : σ ≠ 0)
    (r : Nat × Int) (l : List (Nat × Int)) :
    startTimesAux (some σ) (r :: l) = startTimesAux (some r.2) l := by
  rw [startTimesAux, if_neg]
  rintro ⟨-, h | h⟩
  · exact hσ (Option.some.inj h)
  · exact Option.noConfusion h

theorem exists_end_lt_start (rest₂ : List (Nat × Int)) :
    ∀ (r₂ : Nat × Int) (σ : Int) (s' : Nat),
      σ ≠ 0 → r₂.2 ≠ 0 →
      List.Pairwise (fun a b : Nat × Int => a.1 < b.1) (r₂ :: rest₂) →
      s' ∈ startTimesAux (some σ) (r₂ :: rest₂) →
      ∃ e ∈ endTimes (r₂ :: rest₂), r₂.1 ≤ e ∧ e < s' := by
  induction rest₂ with
  | nil =>
    intro r₂ σ s' hσ _ _ hs
    rw [startTimesAux_cons_of_active_prev σ hσ] at hs
    simp [startTimesAux] at hs
  | cons r₃ rest₃ ih =>
    intro r₂ σ s' hσ h2 hsort hs
    rw [startTimesAux_cons_of_active_prev σ hσ] at hs
    by_cases h3 : r₃.2 = 0
    · refine ⟨r₂.1, ?_, le_refl _, ?_⟩
      · rw [endTimes, if_pos ⟨h2, by simp [h3]⟩]
        simp
      · have hm := mem_startTimesAux_times (r₃ :: rest₃) (some r₂.2) s' hs
        simp only [List.mem_map] at hm
        rcases hm with ⟨b, hb, hbeq⟩
        have hbl := (List.pairwise_cons.1 hsort).1 b hb
        omega
    · rcases ih r₃ r₂.2 s' h2 h3 hsort.of_cons hs with ⟨e, he, hle, hlt⟩
      refine ⟨e, ?_, ?_, hlt⟩
      · rw [endTimes, if_neg (fun hc => h3 (by simpa using hc.2))]
        exact he
      · have h23 : r₂.1 < r₃.1 := (List.pairwise_cons.1 hsort).1 r₃ (by simp)
        omega

/-- Between any two reported starts of the same partition lies a
reported end, provided timestamps strictly increase and no active run
is a single row. -/
theorem exists_end_between (l : List (Nat × Int)) :
    ∀ (prev : Option Int) (s s' : Nat),
      List.Pairwise (fun a b : Nat × Int => a.1 < b.1) l →
      NoSingletonRunAux prev l →
      s ∈ startTimesAux prev l → s' ∈ startTimesAux prev l → s < s' →
      ∃ e ∈ endTimes l, s < e ∧ e < s' := by
  induction l with
  | nil =>
    intro prev s s' _ _ hs _ _
    simp [startTimesAux] at hs
  | cons r rest ih =>
    intro prev s s' hsort hns hs hs' hlt
    by_cases hc : r.2 ≠ 0 ∧ (prev = some 0 ∨ prev = none)
    · rw [startTimesAux, if_pos hc] at hs hs'
      rcases List.mem_cons.1 hs with hseq | hstail
      · rcases List.mem_cons.1 hs' with hs'eq | hs'tail
        · omega
        · rcases rest with _ | ⟨r₃, rest₃⟩
          · simp [startTimesAux] at hs'tail
          · have h3 : r₃.2 ≠ 0 := by
              intro h0
              exact hns.1 ⟨hc.1, hc.2, by simp [h0]⟩
            rcases exists_end_lt_start rest₃ r₃ r.2 s' hc.1 h3
                hsort.of_cons hs'tail with ⟨e, he, hle, hlt'⟩
            refine ⟨e, ?_, ?_, hlt'⟩
            · rw [endTimes, if_neg (fun hcc => h3 (by simpa using hcc.2))]
              exact he
            · have h13 : r.1 < r₃.1 := (List.pairwise_cons.1 hsort).1 r₃ (by simp)
              omega
      · rcases List.mem_cons.1 hs' with hs'eq | hs'tail
        · have hm := mem_startTimesAux_times rest _ s hstail
          simp only [List.mem_map] at hm
          rcases hm with ⟨b, hb, hbeq⟩
          have hbl := (List.pairwise_cons.1 hsort).1 b hb
          omega
        · rcases ih (some r.2) s s' hsort.of_cons hns.2 hstail hs'tail hlt
            with ⟨e, he, h1, h2⟩
          exact ⟨e, mem_endTimes_cons r rest e he, h1, h2⟩
    · rw [startTimesAux, if_neg hc] at hs hs'
      rcases ih (some r.2) s s' hsort.of_cons hns.2 hs hs' hlt with ⟨e, he, h1, h2⟩
      exact ⟨e, mem_endTimes_cons r rest e he, h1, h2⟩

/-- Reported start times strictly increase along the partition. -/
theorem startTimesAux_pairwise (l : List (Nat × Int)) :
    ∀ (prev : Option Int),
      List.Pairwise (fun a b : Nat × Int => a.1 < b.1) l →
      (startTimesAux prev l).Pairwise (fun a b => a < b) := by
  induction l with
  | nil => intro _ _; simp [startTimesAux]
  | cons r rest ih =>
    intro prev hsort
    rw [startTimesAux]
    split
    · refine List.pairwise_cons.2 ⟨?_, ih (some r.2) hsort.of_cons⟩
      intro t ht
      have hm := mem_startTimesAux_times rest _ t ht
      simp only [List.mem_map] at hm
      rcases hm with ⟨b, hb, hbeq⟩
      have hbl := (List.pairwise_cons.1 hsort).1 b hb
      omega
    · exact ih (some r.2) hsort.of_cons

/-- Under the same hypotheses, every reported start has a reported end
strictly after it (the lateral join never drops a start). -/
theorem startTimesAux_exists_end (l : List (Nat × Int)) :
    ∀ (prev : Option Int) (s : Nat),
      List.Pairwise (fun a b : Nat × Int => a.1 < b.1) l →
      NoSingletonRunAux prev l →
      s ∈ startTimesAux prev l →
      ∃ e ∈ endTimes l, s < e := by
  induction l with
  | nil => intro _ s _ _ hs; simp [startTimesAux] at hs
  | cons r rest ih =>
    intro prev s hsort hns hs
    by_cases hc : r.2 ≠ 0 ∧ (prev = some 0 ∨ prev = none)
    · rw [startTimesAux, if_pos hc] at hs
      rcases List.mem_cons.1 hs with hseq | hstail
      · rcases rest with _ | ⟨r₃, rest₃⟩
        · exact absurd ⟨hc.1, hc.2, by simp⟩ hns.1
        · have h3 : r₃.2 ≠ 0 := by
            intro h0
            exact hns.1 ⟨hc.1, hc.2, by simp [h0]⟩
          rcases exists_end_of_active_head rest₃ r₃ hsort.of_cons h3 with ⟨e, he, hle⟩
          refine ⟨e, ?_, ?_⟩
          · rw [endTimes, if_neg (fun hcc => h3 (by simpa using hcc.2))]
            exact he
          · have h13 : r.1 < r₃.1 := (List.pairwise_cons.1 hsort).1 r₃ (by simp)
            omega
      · rcases ih (some r.2) s hsort.of_cons hns.2 hstail with ⟨e, he, h1⟩
        exact ⟨e, mem_endTimes_cons r rest e he, h1⟩
    · rw [startTimesAux, if_neg hc] at hs
      rcases ih (some r.2) s hsort.of_cons hns.2 hs with ⟨e, he, h1⟩
      exact ⟨e, mem_endTimes_cons r rest e he, h1⟩

/-- What `ORDER BY e.end_time LIMIT 1` over
`WHERE e.end_time > s.start_time` returns: a member of the end list,
strictly after the start, and minimal among such. -/
theorem nearestEnd_spec (ends : List Nat) (s e : Nat)
    (h : nearestEnd ends s = some e) :
    e ∈ ends ∧ s < e ∧ ∀ b ∈ ends, s < b → e ≤ b := by
  unfold nearestEnd at h
  rw [List.min?_eq_some_iff'] at h
  rcases h with ⟨hmem, hle⟩
  have h1 := List.mem_filter.1 hmem
  refine ⟨h1.1, by simpa using h1.2, ?_⟩
  intro b hb hsb
  exact hle b (List.mem_filter.2 ⟨hb, by simpa using hsb⟩)

theorem nearestEnd_isSome (ends : List Nat) (s e : Nat)
    (he : e ∈ ends) (hlt : s < e) : (nearestEnd ends s).isSome :=
  List.isSome_min?_of_mem (List.mem_filter.2 ⟨he, by simpa using hlt⟩)

/-- Each element of `sessionsOf` is a reported start paired with its
nearest strictly-later end. -/
theorem mem_sessionsOf (log : List (Nat × Int)) (p : Nat × Nat)
    (hp : p ∈ sessionsOf log) :
    p.1 ∈ startTimes log ∧ nearestEnd (endTimes log) p.1 = some p.2 := by
  unfold sessionsOf at hp
  rcases List.mem_filterMap.1 hp with ⟨s, hs, hf⟩
  rcases Option.map_eq_some'.1 hf with ⟨e, hne, heq⟩
  subst heq
  exact ⟨hs, hne⟩

theorem map_fst_filterMap_pairs (g : Nat → Option Nat) :
    ∀ (l : List Nat), (∀ s ∈ l, (g s).isSome) →
      (l.filterMap (fun s => (g s).map (fun e => (s, e)))).map Prod.fst = l
  | [], _ => by simp
  | a :: l, h => by
    rcases Option.isSome_iff_exists.1 (h a (by simp)) with ⟨e, he⟩
    have ih := map_fst_filterMap_pairs g l
      (fun s hs => h s (List.mem_cons_of_mem a hs))
    simp [List.filterMap_cons, he, ih]

/-- Core ordering result: with strictly increasing timestamps and no
single-row active run, the detected sessions are sorted by start time
and chronologically disjoint (each session's end precedes the next
session's start). -/
theorem sessionsOf_pairwise (log : List (Nat × Int))
    (hmono : List.Pairwise (fun a b : Nat × Int => a.1 < b.1) log)
    (hrun : NoSingletonRun log) :
    (sessionsOf log).Pairwise (fun p q => p.1 < q.1 ∧ p.2 < q.1) := by
  unfold sessionsOf
  refine List.pairwise_filterMap.2
    (List.Pairwise.imp_of_mem ?_ (startTimesAux_pairwise log none hmono))
  intro s s' hs hs' hlt p hp q hq
  rcases Option.map_eq_some'.1 hp with ⟨e, hne, hpe⟩
  rcases Option.map_eq_some'.1 hq with ⟨e', hne', hqe⟩
  subst hpe
  subst hqe
  refine ⟨hlt, ?_⟩
  rcases exists_end_between log none s s' hmono hrun hs hs' hlt with ⟨e₀, he₀, h1, h2⟩
  have hspec := nearestEnd_spec (endTimes log) s e hne
  exact lt_of_le_of_lt (hspec.2.2 e₀ he₀ h1) h2

/-- Under the same hypotheses no start is dropped: the session list
projects onto exactly the reported start list. -/
theorem sessionsOf_map_fst (log : List (Nat × Int))
    (hmono : List.Pairwise (fun a b : Nat × Int => a.1 < b.1) log)
    (hrun : NoSingletonRun log) :
    (sessionsOf log).map Prod.fst = startTimes log := by
  unfold sessionsOf
  refine map_fst_filterMap_pairs _ (startTimes log) ?_
  intro s hs
  rcases startTimesAux_exists_end log none s hmono hrun hs with ⟨e, he, hlt⟩
  exact nearestEnd_isSome (endTimes log) s e he hlt

/-- Ordering of the full detector output: with chamber partitions
listed in strictly increasing chamber order (SQL `ORDER BY ChamberID`)
and each partition well-formed, the output is sorted lexicographically
by `(ChamberID, start_time)`. -/
theorem detectAll_pairwise :
    ∀ (tbl : List (Int × List (Nat × Int))),
      tbl.Pairwise (fun a b => a.1 < b.1) →
      (∀ p ∈ tbl,
        List.Pairwise (fun a b : Nat × Int => a.1 < b.1) p.2 ∧ NoSingletonRun p.2) →
      (detectAll tbl).Pairwise
        (fun x y => x.1 < y.1 ∨ (x.1 = y.1 ∧ x.2.1 < y.2.1))
  | [], _, _ => by simp [detectAll]
  | p :: tbl, hkeys, hlogs => by
    unfold detectAll
    rw [List.flatMap_cons]
    refine List.pairwise_append.2 ⟨?_, ?_, ?_⟩
    · have hp := hlogs p (by simp)
      exact List.Pairwise.map _ (fun a b hab => Or.inr ⟨rfl, hab.1⟩)
        (sessionsOf_pairwise p.2 hp.1 hp.2)
    · exact detectAll_pairwise tbl hkeys.of_cons
        (fun q hq => hlogs q (List.mem_cons_of_mem p hq))
    · intro a ha b hb
      simp only [List.mem_map] at ha
      rcases ha with ⟨qa, -, haeq⟩
      rcases List.mem_flatMap.1 hb with ⟨pb, hpb, hbmem⟩
      simp only [List.mem_map] at hbmem
      rcases hbmem with ⟨qb, -, hbeq⟩
      subst haeq
      subst hbeq
      exact Or.inl ((List.pairwise_cons.1 hkeys).1 pb hpb)

theorem mem_sessionsChambers (log : List (Nat × Int)) (p : Nat × Nat) :
    p ∈ sessionsChambers log ↔
      p.1 ∈ startTimes log ∧ p.2 ∈ endTimes log ∧ p.1 < p.2 := by
  unfold sessionsChambers
  simp only [List.mem_flatMap, List.mem_map, List.mem_filter, decide_eq_true_eq]
  constructor
  · rintro ⟨s, hs, e, ⟨he, hlt⟩, rfl⟩
    exact ⟨hs, he, hlt⟩
  · rintro ⟨h1, h2, h3⟩
    exact ⟨p.1, h1, p.2, ⟨h2, h3⟩, rfl⟩

theorem mem_startTimes3Aux_times :
    ∀ (l : List (Nat × Int)) (b : Bool) (s : Nat),
      s ∈ startTimes3Aux b l → s ∈ l.map Prod.fst
  | [], _, _, h => by simp [startTimes3Aux] at h
  | r :: rest, b, s, h => by
    rw [startTimes3Aux] at h
    split at h
    · rcases List.mem_cons.1 h with h | h
      · simp [h]
      · simp only [List.map_cons, List.mem_cons]
        exact Or.inr (mem_startTimes3Aux_times rest _ s h)
    · simp only [List.map_cons, List.mem_cons]
      exact Or.inr (mem_startTimes3Aux_times rest _ s h)

/-- The carried previous-status flag only matters at a head row of
status `1.0`; under a head of any other status (or an empty list) the
`START` list is state-independent. -/
theorem startTimes3Aux_state_irrel :
    ∀ (l : List (Nat × Int)) (b b' : Bool),
      l.head?.all (fun x => x.2 != 1) = true →
      startTimes3Aux b l = startTimes3Aux b' l
  | [], _, _, _ => rfl
  | r :: rest, b, b', h => by
    have hr : r.2 ≠ 1 := by simpa using h
    rw [startTimes3Aux, startTimes3Aux,
      if_neg (fun hc => hr hc.1), if_neg (fun hc => hr hc.1)]

theorem endTimes3Aux_state_irrel :
    ∀ (l : List (Nat × Int)) (b b' : Bool),
      l.head?.all (fun x => x.2 != 1) = true →
      endTimes3Aux b l = endTimes3Aux b' l
  | [], _, _, _ => rfl
  | r :: rest, b, b', h => by
    have hr : r.2 ≠ 1 := by simpa using h
    rw [endTimes3Aux, endTimes3Aux,
      if_neg (fun hc => hr hc.1), if_neg (fun hc => hr hc.1)]

theorem noSingleton3Aux_state_irrel :
    ∀ (l : List (Nat × Int)) (b b' : Bool),
      l.head?.all (fun x => x.2 != 1) = true →
      NoSingletonRun3Aux b l → NoSingletonRun3Aux b' l
  | [], _, _, _, _ => trivial
  | r :: rest, b, b', h, hns => by
    have hr : r.2 ≠ 1 := by simpa using h
    exact ⟨fun hc => hr hc.1, hns.2⟩

/-- Joint induction for `extract_ch4_3.py`'s positional pairing.
Outside a run the start and end lists pair up run by run; inside a run
opened at time `s₀` the first reported end closes that run.  The
conclusion bundles the pairing's ordering (sorted and chronologically
disjoint), the start-before-end property of every pair, and the equal
lengths of the two boundary lists. -/
theorem zip3_good :
    ∀ (log : List (Nat × Int)),
      List.Pairwise (fun a b : Nat × Int => a.1 < b.1) log →
      (NoSingletonRun3Aux false log →
        ((startTimes3Aux false log).zip (endTimes3Aux false log)).Pairwise
            (fun p q => p.1 < q.1 ∧ p.2 < q.1)
        ∧ (∀ p ∈ (startTimes3Aux false log).zip (endTimes3Aux false log),
            p.1 < p.2)
        ∧ (startTimes3Aux false log).length = (endTimes3Aux false log).length)
      ∧ (∀ s₀ : Nat, (∀ r ∈ log, s₀ < r.1) →
          log.head?.any (fun x => x.2 == 1) = true →
          NoSingletonRun3Aux true log →
          ((s₀ :: startTimes3Aux true log).zip (endTimes3Aux true log)).Pairwise
              (fun p q => p.1 < q.1 ∧ p.2 < q.1)
          ∧ (∀ p ∈ (s₀ :: startTimes3Aux true log).zip (endTimes3Aux true log),
              p.1 < p.2)
          ∧ (s₀ :: startTimes3Aux true log).length
              = (endTimes3Aux true log).length) := by
  intro log
  induction log with
  | nil =>
    intro _
    refine ⟨fun _ => by simp [startTimes3Aux, endTimes3Aux], ?_⟩
    intro s₀ _ habs
    simp at habs
  | cons r rest ih =>
    intro hsort
    have ihrest := ih hsort.of_cons
    constructor
    · -- outside a run
      intro hns
      by_cases h1 : r.2 = 1
      · -- a run starts at r
        have hbeq : (r.2 == 1) = true := by simp [h1]
        have hs : startTimes3Aux false (r :: rest)
            = r.1 :: startTimes3Aux true rest := by
          rw [startTimes3Aux, if_pos ⟨h1, rfl⟩, hbeq]
        have he : endTimes3Aux false (r :: rest) = endTimes3Aux true rest := by
          rw [endTimes3Aux, if_neg (fun hc => Bool.noConfusion hc.2.1), hbeq]
        have hnotall : rest.head?.all (fun x => x.2 != 1) = false := by
          rcases Bool.eq_false_or_eq_true (rest.head?.all (fun x => x.2 != 1))
            with h | h
          · exact absurd ⟨h1, rfl, h⟩ hns.1
          · exact h
        have hany : rest.head?.any (fun x => x.2 == 1) = true := by
          rcases rest with _ | ⟨r', rest'⟩
          · simp at hnotall
          · simp only [List.head?_cons, Option.all_some, bne_eq_false_iff_eq]
              at hnotall
            simp [hnotall]
        have hns2 : NoSingletonRun3Aux true rest := by
          have h2 := hns.2
          rwa [hbeq] at h2
        rw [hs, he]
        exact ihrest.2 r.1 (fun r' hr' => (List.pairwise_cons.1 hsort).1 r' hr')
          hany hns2
      · -- inactive row, stay outside
        have hbeq : (r.2 == 1) = false := by simp [h1]
        have hs : startTimes3Aux false (r :: rest)
            = startTimes3Aux false rest := by
          rw [startTimes3Aux, if_neg (fun hc => h1 hc.1), hbeq]
        have he : endTimes3Aux false (r :: rest) = endTimes3Aux false rest := by
          rw [endTimes3Aux, if_neg (fun hc => h1 hc.1), hbeq]
        have hns2 : NoSingletonRun3Aux false rest := by
          have h2 := hns.2
          rwa [hbeq] at h2
        rw [hs, he]
        exact ihrest.1 hns2
    · -- inside a run opened at s₀
      intro s₀ hbound hhead hns
      have h1 : r.2 = 1 := by simpa using hhead
      have hbeq : (r.2 == 1) = true := by simp [h1]
      have hs₀r : s₀ < r.1 := hbound r (by simp)
      by_cases h2 : rest.head?.all (fun x => x.2 != 1) = true
      · -- the run closes at r
        have hs : startTimes3Aux true (r :: rest)
            = startTimes3Aux false rest := by
          rw [startTimes3Aux, if_neg (fun hc => Bool.noConfusion hc.2), hbeq,
            startTimes3Aux_state_irrel rest true false h2]
        have he : endTimes3Aux true (r :: rest)
            = r.1 :: endTimes3Aux false rest := by
          rw [endTimes3Aux, if_pos ⟨h1, rfl, h2⟩, hbeq,
            endTimes3Aux_state_irrel rest true false h2]
        have hns2 : NoSingletonRun3Aux false rest := by
          have h3 := hns.2
          rw [hbeq] at h3
          exact noSingleton3Aux_state_irrel rest true false h2 h3
        obtain ⟨hpw, hlt, hlen⟩ := ihrest.1 hns2
        rw [hs, he, List.zip_cons_cons]
        refine ⟨List.pairwise_cons.2 ⟨?_, hpw⟩, ?_, ?_⟩
        · intro q hq
          have hq1 := (List.of_mem_zip hq).1
          have hqtime := mem_startTimes3Aux_times rest false q.1 hq1
          simp only [List.mem_map] at hqtime
          rcases hqtime with ⟨br, hbr, hbeq'⟩
          have hrb : r.1 < br.1 := (List.pairwise_cons.1 hsort).1 br hbr
          constructor <;> omega
        · intro p hp
          rcases List.mem_cons.1 hp with hp | hp
          · rw [hp]
            exact hs₀r
          · exact hlt p hp
        · simpa using hlen
      · -- the run continues past r
        have hnext1 : rest.head?.any (fun x => x.2 == 1) = true := by
          rcases rest with _ | ⟨r', rest'⟩
          · simp at h2
          · have h2' : (r'.2 != 1) = false := by
              rcases Bool.eq_false_or_eq_true (r'.2 != 1) with h | h
              · exact absurd (by simpa using h) h2
              · exact h
            simp only [bne_eq_false_iff_eq] at h2'
            simp [h2']
        have hs : startTimes3Aux true (r :: rest)
            = startTimes3Aux true rest := by
          rw [startTimes3Aux, if_neg (fun hc => Bool.noConfusion hc.2), hbeq]
        have he : endTimes3Aux true (r :: rest) = endTimes3Aux true rest := by
          rw [endTimes3Aux, if_neg (fun hc => h2 hc.2.2), hbeq]
        have hns2 : NoSingletonRun3Aux true rest := by
          have h3 := hns.2
          rwa [hbeq] at h3
        rw [hs, he]
        exact ihrest.2 s₀
          (fun r' hr' => hbound r' (List.mem_cons_of_mem r hr')) hnext1 hns2

/-- Corollary for `extract_ch4_3.py`: with strictly increasing
timestamps and no single-row run of status `1.0`, the positional
pairing yields sessions sorted by start time, chronologically disjoint,
each with a strictly later end, and exactly one session per reported
start. -/
theorem sessionsOf3_spec (log : List (Nat × Int))
    (hmono : List.Pairwise (fun a b : Nat × Int => a.1 < b.1) log)
    (hrun : NoSingletonRun3 log) :
    (sessionsOf3 log).Pairwise (fun p q => p.1 < q.1 ∧ p.2 < q.1)
    ∧ (∀ p ∈ sessionsOf3 log, p.1 < p.2)
    ∧ (sessionsOf3 log).map Prod.fst = startTimes3Aux false log := by
  obtain ⟨hpw, hlt, hlen⟩ := (zip3_good log hmono).1 hrun
  have hfe : ((startTimes3Aux false log).zip (endTimes3Aux false log)).filter
        (fun p => decide (p.1 < p.2))
      = (startTimes3Aux false log).zip (endTimes3Aux false log) := by
    rw [List.filter_eq_self]
    intro p hp
    simpa using hlt p hp
  unfold sessionsOf3
  rw [hfe]
  exact ⟨hpw, hlt, List.map_fst_zip _ _ (le_of_eq hlen)⟩

end DetectorLemmas

/-! ## Claims -/

set_option maxRecDepth 40000 in
/-- C1, counterexample.  At the claim's own instance — target `T = 400`,
chamber-7 durations `[150, 100, 200]` (one row per second) — the code
emits a *single* flush: the third session is the last input row, so
`different_id` is `True`, the `else` (full-flush) branch runs, and all
450 seconds are absorbed into one segment labeled `0`.  No segment
totaling 400 s is emitted and no 50 s remainder is carried, contrary to
the claim. -/
theorem C1_counterexample :
    extractRun 400
        [(⟨7, 150, List.range' 0 150⟩ : Sess Nat),
          ⟨7, 100, List.range' 150 100⟩, ⟨7, 200, List.range' 250 200⟩]
      = Except.ok [⟨7, 0, 450, List.range' 0 450⟩] := rfl

/-- C1, amended.  When appending a session makes `acc` strictly exceed
`T` *and a next session of the same chamber exists*, the source keeps
`time_diff = acc - T + 1` (one more than the claim's `acc - T`): the
most recently appended row-set is split at row index
`session_duration - (acc - T) - 1`, the flushed segment discharges
`T - 1` seconds under the incremented segment counter, the carried
buffer is the split's tail, and `acc` resets to `acc - T + 1`.  (With
`T = 400` and chamber-7 durations `[150, 100, 200]` followed by a
further chamber-7 session, the third session is split at row 149, the
emitted segment totals 399 s and the new buffer starts with the
remaining 51 s; with the three sessions alone no split-flush happens at
all, cf. the counterexample.) -/
theorem C1_amended (α : Type) (T : Int) (s n : Sess α) (rest : List (Sess α))
    (dfs : List (List α)) (total : Int) (cnt : Nat)
    (hover : T < total + s.duration) (hsame : s.chamber = n.chamber) :
    segLoop T (s :: n :: rest) dfs total cnt
      = ⟨s.chamber, cnt + 1, total + s.duration - (total + s.duration - T + 1),
          dfs.flatten ++
            (pySplit s.rows (s.duration - (total + s.duration - T + 1))).1⟩ ::
        segLoop T (n :: rest)
          [(pySplit s.rows (s.duration - (total + s.duration - T + 1))).2]
          (total + s.duration - T + 1) (cnt + 1) := by
  have hd : differentNext s (n :: rest) = false := by
    simp [differentNext, hsame]
  rw [segLoop, if_pos (Or.inl hover), if_pos ⟨hover, hd⟩,
    appendStep_dropLast T s dfs _ (le_of_lt hover),
    appendStep_getLastD T s dfs _ (le_of_lt hover)]
  simp

set_option maxRecDepth 40000 in
/-- C1, witness: the amended step at `T = 400`, pending 250 s of
chamber 7, incoming 200 s session with one row per second, and one more
chamber-7 session: split at row 149, flush of 399 s, carry of 51 s. -/
theorem C1_amended_witness :
    segLoop 400
        [(⟨7, 200, List.range' 250 200⟩ : Sess Nat), ⟨7, 50, List.range' 450 50⟩]
        [List.range' 0 150, List.range' 150 100] 250 0
      = [⟨7, 1, 399, List.range' 0 399⟩, ⟨7, 0, 101, List.range' 399 101⟩] := by
  rw [C1_amended Nat 400 ⟨7, 200, List.range' 250 200⟩ ⟨7, 50, List.range' 450 50⟩
    [] [List.range' 0 150, List.range' 150 100] 250 0 (by decide) rfl]
  decide

/-- C2: for every chamber and every input, the rows of the emitted
segments of that chamber are exactly the rows of that chamber's
materialized sessions — as multisets (in fact in order): the
append/split/flush logic neither drops nor duplicates a row, whatever
the computed split index (negative, zero, or past the end of the
row-set, `pySplit` always cuts the list in two complementary parts). -/
theorem C2_row_conservation (α : Type) (T : Int) (ss : List (Sess α))
    (fs : List (Flush α)) (c : Int) (h : extractRun T ss = Except.ok fs) :
    (((fs.filter (fun f => f.chamber == c)).flatMap (fun f => f.rows) : List α)
        : Multiset α)
      = ((ss.filter (fun s => s.chamber == c)).flatMap (fun s => s.rows)
        : Multiset α) := by
  rcases ss with _ | ⟨s, rest⟩
  · simp [extractRun] at h
  · simp only [extractRun, Except.ok.injEq] at h
    subst h
    have h2 := segLoop_filter_flatMap T c (s :: rest) [] 0 0
    simp only [List.flatten_nil, List.nil_append, ite_self] at h2
    rw [h2]

/-- C2, witness: an input whose split indices land past the end of a
row-set (399 on a 2-row set) and below zero (−102), producing an empty
middle flush; the chamber-7 rows are still conserved. -/
theorem C2_row_conservation_witness :
    extractRun 400 [(⟨7, 900, [0, 1]⟩ : Sess Nat), ⟨7, 1, [2, 3]⟩, ⟨7, 1, [4]⟩]
        = Except.ok [⟨7, 1, 399, [0, 1]⟩, ⟨7, 2, 399, []⟩, ⟨7, 0, 104, [2, 3, 4]⟩]
    ∧ ((([(⟨7, 1, 399, [0, 1]⟩ : Flush Nat), ⟨7, 2, 399, []⟩,
            ⟨7, 0, 104, [2, 3, 4]⟩].filter (fun f => f.chamber == 7)).flatMap
          (fun f => f.rows) : List Nat) : Multiset Nat)
      = ((([(⟨7, 900, [0, 1]⟩ : Sess Nat), ⟨7, 1, [2, 3]⟩,
            ⟨7, 1, [4]⟩].filter (fun s => s.chamber == 7)).flatMap
          (fun s => s.rows) : List Nat) : Multiset Nat) :=
  ⟨rfl, C2_row_conservation Nat 400 _ _ 7 rfl⟩

/-- C3, counterexample.  A chamber partition with a single-row active
run followed by a longer run — statuses `1, 0, 1, 1, 0` at times
`0..4` — makes the nearest-following-end pairing produce sessions
`(0, 3)` and `(2, 3)`: the single-row run at time 0 has no strictly
later end of its own, so it captures the end of the *next* run, and the
two reported sessions overlap. -/
theorem C3_counterexample :
    sessionsOf [(0, 1), (1, 0), (2, 1), (3, 1), (4, 0)] = [(0, 3), (2, 3)]
    ∧ ¬ (sessionsOf [(0, 1), (1, 0), (2, 1), (3, 1), (4, 0)]).Pairwise
        (fun p q => p.2 < q.1) := by
  constructor
  · rfl
  · decide

/-- C3, amended, covering the three cited detectors.

For `extract_ch4.py` / `extract_ch4_2.py` (nearest-later-end LATERAL
pairing): for a chamber partition with strictly increasing timestamps
in which no maximal active run is a single row (no row is both a
session start and a session end), the detected sessions are sorted by
start time and chronologically disjoint (each end precedes the next
start); every `0 → non-zero` transition is reported as exactly one
start, paired with the nearest strictly-later reported end (each
`non-zero → 0` transition); and with the chamber partitions themselves
in increasing chamber order, the full output is sorted by
`(chamber_id, start_time)`.

For `extract_chambers.py`: the same boundary CTEs are paired by a plain
chamber equijoin, so its sessions are exactly *all* pairs of a start
with a strictly later end — starts are duplicated and sessions overlap
for any chamber with two runs, even well-formed ones (concretely,
statuses `1, 1, 0, 1, 1, 0` yield `(0,1), (0,4), (3,4)`), so the
original guarantees do not hold for this variant regardless of the
hypotheses.

For `extract_ch4_3.py` (runs of status exactly `1.0`, `ROW_NUMBER`
positional pairing): with strictly increasing timestamps and no
single-row run of status `1.0`, the pairing yields sessions sorted by
start time, chronologically disjoint, each start strictly before its
end, with exactly one session per reported start; with a single-row
run the `CASE` shadows that run's `END` label and the positional
pairing misaligns (statuses `1, 0, 1, 1, 0` yield the single spanning
session `(0, 3)`). -/
theorem C3_amended (log : List (Nat × Int))
    (hmono : List.Pairwise (fun a b : Nat × Int => a.1 < b.1) log)
    (hrun : NoSingletonRun log) :
    ((sessionsOf log).Pairwise (fun p q => p.1 < q.1 ∧ p.2 < q.1))
    ∧ (∀ p ∈ sessionsOf log, p.1 ∈ startTimes log ∧
        nearestEnd (endTimes log) p.1 = some p.2 ∧ p.1 < p.2)
    ∧ ((sessionsOf log).map Prod.fst = startTimes log)
    ∧ (∀ (tbl : List (Int × List (Nat × Int))),
        tbl.Pairwise (fun a b => a.1 < b.1) →
        (∀ p ∈ tbl, List.Pairwise (fun a b : Nat × Int => a.1 < b.1) p.2 ∧
          NoSingletonRun p.2) →
        (detectAll tbl).Pairwise
          (fun x y => x.1 < y.1 ∨ (x.1 = y.1 ∧ x.2.1 < y.2.1)))
    ∧ (∀ (log₂ : List (Nat × Int)) (p : Nat × Nat),
        p ∈ sessionsChambers log₂ ↔
          p.1 ∈ startTimes log₂ ∧ p.2 ∈ endTimes log₂ ∧ p.1 < p.2)
    ∧ (sessionsChambers [(0, 1), (1, 1), (2, 0), (3, 1), (4, 1), (5, 0)]
          = [(0, 1), (0, 4), (3, 4)]
        ∧ ¬ (sessionsChambers
              [(0, 1), (1, 1), (2, 0), (3, 1), (4, 1), (5, 0)]).Pairwise
            (fun p q => p.2 < q.1))
    ∧ (∀ (log₃ : List (Nat × Int)),
        List.Pairwise (fun a b : Nat × Int => a.1 < b.1) log₃ →
        NoSingletonRun3 log₃ →
        (sessionsOf3 log₃).Pairwise (fun p q => p.1 < q.1 ∧ p.2 < q.1)
        ∧ (∀ p ∈ sessionsOf3 log₃, p.1 < p.2)
        ∧ (sessionsOf3 log₃).map Prod.fst = startTimes3Aux false log₃)
    ∧ sessionsOf3 [(0, 1), (1, 0), (2, 1), (3, 1), (4, 0)] = [(0, 3)] := by
  refine ⟨sessionsOf_pairwise log hmono hrun, ?_,
    sessionsOf_map_fst log hmono hrun, detectAll_pairwise,
    mem_sessionsChambers, by constructor <;> decide,
    sessionsOf3_spec, by decide⟩
  intro p hp
  rcases mem_sessionsOf log p hp with ⟨h1, h2⟩
  exact ⟨h1, h2, (nearestEnd_spec _ _ _ h2).2.1⟩

/-- C3, witness: two well-formed runs (statuses `1, 1, 0, 1, 1, 0`)
yield the disjoint, ordered sessions `(0, 1)` and `(3, 4)` under the
nearest-end pairing, and the same under the positional pairing of
`extract_ch4_3.py`. -/
theorem C3_amended_witness :
    List.Pairwise (fun a b : Nat × Int => a.1 < b.1)
        [(0, 1), (1, 1), (2, 0), (3, 1), (4, 1), (5, 0)]
    ∧ NoSingletonRun [(0, 1), (1, 1), (2, 0), (3, 1), (4, 1), (5, 0)]
    ∧ NoSingletonRun3 [(0, 1), (1, 1), (2, 0), (3, 1), (4, 1), (5, 0)]
    ∧ (sessionsOf [(0, 1), (1, 1), (2, 0), (3, 1), (4, 1), (5, 0)]).Pairwise
        (fun p q => p.1 < q.1 ∧ p.2 < q.1)
    ∧ (sessionsOf3 [(0, 1), (1, 1), (2, 0), (3, 1), (4, 1), (5, 0)]).Pairwise
        (fun p q => p.1 < q.1 ∧ p.2 < q.1) :=
  ⟨by decide, by decide, by decide,
    (C3_amended [(0, 1), (1, 1), (2, 0), (3, 1), (4, 1), (5, 0)]
      (by decide) (by decide)).1,
    ((C3_amended [(0, 1), (1, 1), (2, 0), (3, 1), (4, 1), (5, 0)]
        (by decide) (by decide)).2.2.2.2.2.2.1
      [(0, 1), (1, 1), (2, 0), (3, 1), (4, 1), (5, 0)]
      (by decide) (by decide)).1⟩

/-- C4, counterexample.  A single chamber-7 session of 500 s with
target `T = 400` is flushed — being the last input — through the full
`else` branch: the emitted segment (also the final segment for chamber
7) discharges 500 s, *exceeding* `T` rather than being at most `T` or
shorter than it. -/
theorem C4_counterexample :
    extractRun 400 [(⟨7, 500, [9]⟩ : Sess Nat)]
        = Except.ok [⟨7, 0, 500, [9]⟩]
    ∧ ((400 : Int) < (⟨7, 0, 500, [9]⟩ : Flush Nat).dur) :=
  ⟨rfl, by decide⟩

/-- C4, amended.  With the input sessions sorted by chamber (as the
detector's `ORDER BY ChamberID, start_time` provides), every emitted
segment that is followed by a later segment of the same chamber
discharges at most `T` seconds (exactly `T - 1` for an overflow split,
exactly `T` for an exact hit); the final segment of a chamber may be
shorter *or longer* than `T`, since on a chamber change or at the end
of the input the flush takes the full-flush branch and absorbs any
overflow. -/
theorem C4_amended (α : Type) (T : Int) (ss : List (Sess α))
    (fs : List (Flush α))
    (hsort : ss.Pairwise (fun a b => a.chamber ≤ b.chamber))
    (h : extractRun T ss = Except.ok fs) :
    fs.Pairwise (fun f g => f.chamber = g.chamber → f.dur ≤ T) := by
  rcases ss with _ | ⟨s, rest⟩
  · simp [extractRun] at h
  · simp only [extractRun, Except.ok.injEq] at h
    subst h
    exact segLoop_pairwise_dur T (s :: rest) [] 0 0 hsort

/-- C4, witness: chamber 7 at exactly `T = 400` then a 10 s remainder:
the non-final segment discharges 400 ≤ T. -/
theorem C4_amended_witness :
    ([(⟨7, 400, [0]⟩ : Sess Nat), ⟨7, 10, [1]⟩].Pairwise
        (fun a b => a.chamber ≤ b.chamber))
    ∧ extractRun 400 [(⟨7, 400, [0]⟩ : Sess Nat), ⟨7, 10, [1]⟩]
        = Except.ok [⟨7, 0, 400, [0]⟩, ⟨7, 0, 10, [1]⟩]
    ∧ ([(⟨7, 0, 400, [0]⟩ : Flush Nat), ⟨7, 0, 10, [1]⟩].Pairwise
        (fun f g => f.chamber = g.chamber → f.dur ≤ 400)) :=
  ⟨by decide, rfl,
    C4_amended Nat 400 [⟨7, 400, [0]⟩, ⟨7, 10, [1]⟩]
      [⟨7, 0, 400, [0]⟩, ⟨7, 0, 10, [1]⟩] (by decide) rfl⟩

/-- C5: (i) when the next session belongs to a different chamber the
pending buffer — including the current session's rows — is flushed as
one segment before that session's rows can join the buffer, whatever
the accumulated duration (e.g. chamber 7 flushes at 250 s when a
chamber-8 session arrives); hence (ii) with each session's rows
carrying that session's `ChamberID` (first component), no emitted
segment contains rows of two chambers, and (iii) within each chamber
the concatenation of the emitted segments' rows reproduces the
concatenation of the sessions' rows in order, so row order is preserved
across segment boundaries. -/
theorem C5_chamber_change_flush (β : Type) (T : Int) :
    (∀ (s n : Sess (Int × β)) (rest : List (Sess (Int × β)))
        (dfs : List (List (Int × β))) (total : Int) (cnt : Nat),
      s.chamber ≠ n.chamber →
      segLoop T (s :: n :: rest) dfs total cnt
        = ⟨s.chamber, 0, total + s.duration, dfs.flatten ++ s.rows⟩ ::
            segLoop T (n :: rest) [] 0 0)
    ∧ (∀ (ss : List (Sess (Int × β))) (fs : List (Flush (Int × β))),
        (∀ s ∈ ss, ∀ r ∈ s.rows, r.1 = s.chamber) →
        extractRun T ss = Except.ok fs →
        ∀ f ∈ fs, ∀ r ∈ f.rows, r.1 = f.chamber)
    ∧ (∀ (ss : List (Sess (Int × β))) (fs : List (Flush (Int × β))) (c : Int),
        extractRun T ss = Except.ok fs →
        (fs.filter (fun f => f.chamber == c)).flatMap (fun f => f.rows)
          = (ss.filter (fun s => s.chamber == c)).flatMap (fun s => s.rows)) := by
  refine ⟨?_, ?_, ?_⟩
  · intro s n rest dfs total cnt hne
    have hd : differentNext s (n :: rest) = true := by
      simp [differentNext, hne]
    rw [segLoop, if_pos (Or.inr (Or.inr (Or.inl hd))),
      if_neg (fun hx => by rw [hd] at hx; exact Bool.noConfusion hx.2),
      appendStep_flatten]
  · intro ss fs htag h
    rcases ss with _ | ⟨s, rest⟩
    · simp [extractRun] at h
    · simp only [extractRun, Except.ok.injEq] at h
      subst h
      exact segLoop_rows_tag T (s :: rest) [] 0 0 htag (by simp)
  · intro ss fs c h
    rcases ss with _ | ⟨s, rest⟩
    · simp [extractRun] at h
    · simp only [extractRun, Except.ok.injEq] at h
      subst h
      have h2 := segLoop_filter_flatMap T c (s :: rest) [] 0 0
      simp only [List.flatten_nil, List.nil_append, ite_self] at h2
      rw [h2]

/-- C5, witness: chamber 7 with 250 s accumulated flushes its segment
at 250 s the moment a chamber-8 session arrives; the chamber-8 rows go
to a separate segment. -/
theorem C5_chamber_change_flush_witness :
    (7 : Int) ≠ 8
    ∧ segLoop 400 [(⟨7, 100, [((7 : Int), 2)]⟩ : Sess (Int × Nat)),
          ⟨8, 300, [(8, 3), (8, 4)]⟩] [[(7, 0), (7, 1)]] 150 0
      = ⟨7, 0, 250, [(7, 0), (7, 1), (7, 2)]⟩ ::
          segLoop 400 [(⟨8, 300, [((8 : Int), 3), (8, 4)]⟩ : Sess (Int × Nat))] [] 0 0 :=
  ⟨by decide,
    by
      have h := (C5_chamber_change_flush Nat 400).1
        ⟨7, 100, [(7, 2)]⟩ ⟨8, 300, [(8, 3), (8, 4)]⟩ []
        [[(7, 0), (7, 1)]] 150 0 (by decide)
      rw [h]
      rfl⟩

/-- C6: a session whose duration lands the accumulator exactly on the
target (`acc = T` after appending) produces no observable split: the
buffer (including all of that session's rows) is flushed as one
segment of exactly `T` seconds, nothing is carried into the next
buffer, and the accumulated duration resets to 0.  (Internally the
rows are still cut at `idx_sep = duration - 1`, but both slices are
flushed together in order.) -/
theorem C6_exact_hit_no_split (α : Type) (T : Int) (s : Sess α)
    (rest : List (Sess α)) (dfs : List (List α)) (total : Int) (cnt : Nat)
    (h : total + s.duration = T) :
    segLoop T (s :: rest) dfs total cnt
      = ⟨s.chamber, 0, T, dfs.flatten ++ s.rows⟩ :: segLoop T rest [] 0 0 := by
  rw [segLoop, if_pos (Or.inr (Or.inl h)),
    if_neg (fun hx => by have h1 := hx.1; omega),
    appendStep_flatten, h]

/-- C6, witness: 250 s pending plus a 150 s session with target 400:
one segment of 400 s holding every row, empty next buffer, counter and
accumulator reset. -/
theorem C6_exact_hit_no_split_witness :
    (250 : Int) + (⟨7, 150, [0, 1]⟩ : Sess Nat).duration = 400
    ∧ segLoop 400 [(⟨7, 150, [0, 1]⟩ : Sess Nat)] [[9]] 250 3
      = [⟨7, 0, 400, [9, 0, 1]⟩] :=
  ⟨by decide,
    by
      rw [C6_exact_hit_no_split Nat 400 ⟨7, 150, [0, 1]⟩ [] [[9]] 250 3 (by decide)]
      decide⟩

/-- C7: the code contradicts the claimed naming/no-overwrite contract.
Two chamber-7 sessions of 400 s each with target 400 trigger two full
flushes; each resets `segment_count` to `0` *before* building the file
name, so both non-empty segments are written to
`Chamber_7_Segment_0.csv` — the second write overwrites the first
artifact instead of using an incrementing per-chamber counter. -/
theorem C7_segment_zero_overwrite :
    extractRun 400 [(⟨7, 400, [0]⟩ : Sess Nat), ⟨7, 400, [1]⟩]
        = Except.ok [⟨7, 0, 400, [0]⟩, ⟨7, 0, 400, [1]⟩]
    ∧ fileName (⟨7, 0, 400, [0]⟩ : Flush Nat) = "Chamber_7_Segment_0.csv"
    ∧ fileName (⟨7, 0, 400, [1]⟩ : Flush Nat) = "Chamber_7_Segment_0.csv"
    ∧ artifacts [(⟨7, 0, 400, [0]⟩ : Flush Nat), ⟨7, 0, 400, [1]⟩]
        = [⟨7, 0, 400, [0]⟩, ⟨7, 0, 400, [1]⟩] :=
  ⟨rfl, rfl, rfl, rfl⟩

/-- C8, counterexample.  In `extract_ch4_3.py` a failing session query
(e.g. a malformed schema) is caught *inside* `extract_chamber_ch4`,
which prints the error and returns normally: no per-session processing
happens, but the process exits with status 0, not non-zero. -/
theorem C8_counterexample :
    @mainV3 Nat true true false true
        (Except.error "Catalog Error: Table with name JAAR_raw does not exist")
      = (0, []) := rfl

/-- C8, amended.  A failing session-detection query aborts the run with
no per-session processing and no artifacts, but the process exits 0
(the extractor's internal `except` swallows the error); the process
exits non-zero only when the database file is missing, opening the
connection raises, or requested validation fails. -/
theorem C8_amended :
    (∀ (e : String) (vf vo : Bool), vf = false ∨ vo = true →
      @mainV3 Nat true true vf vo (Except.error e) = (0, []))
    ∧ (∀ q : Except String (List (SessV3 Nat)),
        @mainV3 Nat false true false true q = (1, []))
    ∧ (∀ q : Except String (List (SessV3 Nat)),
        @mainV3 Nat true false false true q = (1, []))
    ∧ (∀ q : Except String (List (SessV3 Nat)),
        @mainV3 Nat true true true false q = (1, [])) := by
  refine ⟨?_, fun q => rfl, fun q => rfl, fun q => rfl⟩
  intro e vf vo h
  rcases h with h | h <;> subst h <;> simp [mainV3, extractV3]

/-- C8, witness: a concrete failing query under default flags: exit
status 0 and no artifacts. -/
theorem C8_amended_witness :
    ((false = false ∨ (true : Bool) = true)
      ∧ @mainV3 Nat true true false true (Except.error "IO Error") = (0, [])) :=
  ⟨Or.inl rfl, C8_amended.1 "IO Error" false true (Or.inl rfl)⟩

theorem writtenV2_cons (e : EventV2) (evs : List EventV2) :
    writtenV2 (e :: evs)
      = (match e with
        | EventV2.wrote n _ => n :: writtenV2 evs
        | EventV2.skipped _ _ => writtenV2 evs) := by
  cases e <;> simp [writtenV2, List.filterMap_cons]

theorem writtenV2_map {α : Type} :
    ∀ (l : List (Nat × SessV2 α)),
      writtenV2 (l.map (fun p =>
          if p.2.rows.isEmpty then EventV2.skipped p.2.chamber p.1
          else EventV2.wrote
            ("Chamber_" ++ toString p.2.chamber ++ "_Session_" ++
              toString p.1 ++ ".csv")
            p.2.rows.length))
        = (l.filter (fun p => !p.2.rows.isEmpty)).map
            (fun p => "Chamber_" ++ toString p.2.chamber ++ "_Session_" ++
              toString p.1 ++ ".csv")
  | [] => rfl
  | a :: l => by
    by_cases hc : a.2.rows.isEmpty <;>
      simp [hc, writtenV2_cons, List.filter_cons, writtenV2_map l]

/-- C9: an empty fetched result is a loggable skip, not an error.  In
`extract_ch4_2.py`: every detected session produces exactly one event
(processing always continues to the next item), a session with no rows
produces the skip event for its index and chamber, and the written
files are exactly those of the non-empty sessions.  In `extract_ch4.py`:
a flush whose combined frame is empty is never written as an
artifact (the run itself still completes). -/
theorem C9_empty_result_skipped :
    (∀ (α : Type) (ss : List (SessV2 α)), (extractV2 ss).length = ss.length)
    ∧ (∀ (α : Type) (ss : List (SessV2 α)) (p : Nat × SessV2 α),
        p ∈ ss.enum → p.2.rows = [] →
        EventV2.skipped p.2.chamber p.1 ∈ extractV2 ss)
    ∧ (∀ (α : Type) (ss : List (SessV2 α)),
        writtenV2 (extractV2 ss)
          = (ss.enum.filter (fun p => !p.2.rows.isEmpty)).map
              (fun p => "Chamber_" ++ toString p.2.chamber ++ "_Session_" ++
                toString p.1 ++ ".csv"))
    ∧ (∀ (α : Type) (T : Int) (ss : List (Sess α)) (fs : List (Flush α)),
        extractRun T ss = Except.ok fs →
        ∀ f ∈ fs, f.rows = [] → f ∉ artifacts fs) := by
  refine ⟨?_, ?_, ?_, ?_⟩
  · intro α ss
    simp [extractV2]
  · intro α ss p hp hrows
    exact List.mem_map.2 ⟨p, hp, by simp [hrows]⟩
  · intro α ss
    exact writtenV2_map ss.enum
  · intro α T ss fs _ f _ hrows hmem
    simp [artifacts, List.mem_filter, hrows] at hmem

/-- C9, witness: a three-session input whose middle session is empty
(one skip event, no file, third session still processed and written),
and an accumulator run with an empty middle flush that is not among the
written artifacts. -/
theorem C9_empty_result_skipped_witness :
    (extractV2 [(⟨7, [0, 1]⟩ : SessV2 Nat), ⟨7, []⟩, ⟨8, [2]⟩]).length = 3
    ∧ EventV2.skipped 7 1 ∈ extractV2 [(⟨7, [0, 1]⟩ : SessV2 Nat), ⟨7, []⟩, ⟨8, [2]⟩]
    ∧ writtenV2 (extractV2 [(⟨7, [0, 1]⟩ : SessV2 Nat), ⟨7, []⟩, ⟨8, [2]⟩])
        = ["Chamber_7_Session_0.csv", "Chamber_8_Session_2.csv"]
    ∧ (⟨7, 2, 399, []⟩ : Flush Nat) ∉ artifacts
        [(⟨7, 1, 399, [0, 1]⟩ : Flush Nat), ⟨7, 2, 399, []⟩, ⟨7, 0, 104, [2, 3, 4]⟩] := by
  refine ⟨C9_empty_result_skipped.1 Nat _,
    C9_empty_result_skipped.2.1 Nat _ (1, ⟨7, []⟩) (by decide) rfl, ?_, ?_⟩
  · rw [C9_empty_result_skipped.2.2.1 Nat [(⟨7, [0, 1]⟩ : SessV2 Nat), ⟨7, []⟩, ⟨8, [2]⟩]]
    rfl
  · exact C9_empty_result_skipped.2.2.2 Nat 400
      [⟨7, 900, [0, 1]⟩, ⟨7, 1, [2, 3]⟩, ⟨7, 1, [4]⟩]
      [⟨7, 1, 399, [0, 1]⟩, ⟨7, 2, 399, []⟩, ⟨7, 0, 104, [2, 3, 4]⟩]
      rfl ⟨7, 2, 399, []⟩ (by decide) rfl

/-- C10: with zero detected sessions the segmenting loop reads
`all_active_sessions.iloc[0]` before checking any exit condition and
fails with an out-of-bounds indexing error instead of terminating
normally with no artifacts; with at least one detected session the
loop always terminates normally with a flush trace. -/
theorem C10_empty_sessions_index_error :
    (∀ (T : Int), extractRun T ([] : List (Sess Nat))
        = Except.error "single positional indexer is out-of-bounds")
    ∧ (∀ (T : Int) (s : Sess Nat) (rest : List (Sess Nat)),
        ∃ fs, extractRun T (s :: rest) = Except.ok fs) :=
  ⟨fun _ => rfl, fun _ _ _ => ⟨_, rfl⟩⟩

end MethaneFlux
